import Mathlib

/-
  Verification of the multi-level caching layer (caching.py).

  The Python module is shallowly embedded as follows:

  * A Python value of dynamic type is modelled by `Option α`: `none` is the
    Python constant `None`, `some x` any other value.  This matters because
    every backend's `get` signals a miss by returning `None`, so a stored
    `None` and an absent key produce the same return value.
  * A Python `dict` (which preserves insertion order; assignment to an
    existing key keeps its position, assignment to a new key appends) is
    modelled by an insertion-ordered association list `List (String × β)`
    with the operations `dlookup`, `dinsert`, `dremove` below.  `dremove`
    is written as a filter; on the unique-key lists produced by the dict
    operations this coincides with Python's `del`.
  * Wall-clock time (`time.time()`) is passed explicitly as a `Nat` argument
    `now`.  Real clock values are strictly positive.
  * The filesystem used by `FileCache` is a map from path to file content;
    `hashlib.md5(key).hexdigest()` in `_get_file_path` and in `cache_key`
    is an external library function and is passed as an abstract
    `String → String` parameter.
  * Exceptions that escape a function are modelled with `Except`.
-/

namespace ThinkTankCache

/-! ### Python dict as an insertion-ordered association list -/

def dlookup {β : Type} : List (String × β) → String → Option β
  | [], _ => none
  | (k', v) :: rest, k => if k' = k then some v else dlookup rest k

def dinsert {β : Type} : List (String × β) → String → β → List (String × β)
  | [], k, v => [(k, v)]
  | (k', v') :: rest, k, v =>
      if k' = k then (k, v) :: rest else (k', v') :: dinsert rest k v

def dremove {β : Type} : List (String × β) → String → List (String × β)
  | [], _ => []
  | (k', v) :: rest, k =>
      if k' = k then dremove rest k else (k', v) :: dremove rest k

theorem dlookup_dinsert_self {β : Type} (l : List (String × β)) (k : String) (v : β) :
    dlookup (dinsert l k v) k = some v := by
  induction l with
  | nil => simp [dinsert, dlookup]
  | cons p rest ih =>
    by_cases h : p.1 = k
    · simp [dinsert, dlookup, h]
    · simp only [dinsert, dlookup, h, if_false]
      exact ih

theorem dlookup_dinsert_ne {β : Type} (l : List (String × β)) (k k' : String) (v : β)
    (h : k ≠ k') : dlookup (dinsert l k v) k' = dlookup l k' := by
  induction l with
  | nil => simp [dinsert, dlookup, h]
  | cons p rest ih =>
    by_cases hp : p.1 = k
    · simp [dinsert, dlookup, hp, h]
    · simp only [dinsert, dlookup, hp, if_false]
      by_cases hp' : p.1 = k'
      · simp [hp']
      · simp [hp', ih]

theorem dlookup_dremove_self {β : Type} (l : List (String × β)) (k : String) :
    dlookup (dremove l k) k = none := by
  induction l with
  | nil => simp [dremove, dlookup]
  | cons p rest ih =>
    obtain ⟨k', v⟩ := p
    by_cases h : k' = k
    · simpa [dremove, h] using ih
    · simpa [dremove, dlookup, h] using ih

theorem dlookup_dremove_ne {β : Type} (l : List (String × β)) (k k' : String)
    (h : k ≠ k') : dlookup (dremove l k) k' = dlookup l k' := by
  induction l with
  | nil => simp [dremove, dlookup]
  | cons p rest ih =>
    obtain ⟨k₁, v⟩ := p
    have h' : ¬ k' = k := fun hh => h hh.symm
    by_cases hp : k₁ = k
    · have hp' : ¬ k₁ = k' := by rw [hp]; exact h
      simpa [dremove, dlookup, hp, hp', h] using ih
    · by_cases hp' : k₁ = k'
      · simp [dremove, dlookup, hp, hp', h']
      · simpa [dremove, dlookup, hp, hp'] using ih

theorem dlookup_eq_none_iff {β : Type} (l : List (String × β)) (k : String) :
    dlookup l k = none ↔ k ∉ l.map Prod.fst := by
  induction l with
  | nil => simp [dlookup]
  | cons p rest ih =>
    obtain ⟨k', v⟩ := p
    by_cases h : k' = k
    · simp [dlookup, h]
    · have h' : ¬ k = k' := fun hh => h hh.symm
      simp [dlookup, h, h', ih]

theorem length_dinsert_absent {β : Type} (l : List (String × β)) (k : String) (v : β)
    (h : dlookup l k = none) : (dinsert l k v).length = l.length + 1 := by
  induction l with
  | nil => simp [dinsert]
  | cons p rest ih =>
    by_cases hp : p.1 = k
    · simp [dlookup, hp] at h
    · simp only [dlookup, hp, if_false] at h
      simp [dinsert, hp, ih h]

theorem dinsert_absent_append {β : Type} (l : List (String × β)) (k : String) (v : β)
    (h : dlookup l k = none) : dinsert l k v = l ++ [(k, v)] := by
  induction l with
  | nil => simp [dinsert]
  | cons p rest ih =>
    by_cases hp : p.1 = k
    · simp [dlookup, hp] at h
    · simp only [dlookup, hp, if_false] at h
      simp [dinsert, hp, ih h]

/-! ### MemoryCache (caching.py lines 151-285)

A cache entry is `(value, expiry)`: the stored Python value and the optional
absolute expiry instant (`time.time() + ttl`).  `_make_key` prefixes the
namespace. -/

def makeKey (ns k : String) : String := ns ++ ":" ++ k

structure MemoryCache (α : Type) where
  ns : String
  cache : List (String × (Option α × Option Nat))
  maxSize : Nat
  hits : Nat
  misses : Nat
  evictions : Nat

def memFresh (α : Type) (ns : String) (m : Nat) : MemoryCache α :=
  ⟨ns, [], m, 0, 0, 0⟩

def evictOne {α : Type} (c : MemoryCache α) : MemoryCache α :=
  match c.cache with
  | [] => c
  | _ :: rest => { c with cache := rest, evictions := c.evictions + 1 }

def memGet {α : Type} (now : Nat) (c : MemoryCache α) (k : String) :
    Option α × MemoryCache α :=
  let nk := makeKey c.ns k
  match dlookup c.cache nk with
  | some (v, exp) =>
    if exp.isSome ∧ now > exp.getD 0 then
      (none, { c with cache := dremove c.cache nk, misses := c.misses + 1 })
    else
      (v, { c with cache := dinsert c.cache nk (v, exp), hits := c.hits + 1 })
  | none => (none, { c with misses := c.misses + 1 })

def memSet {α : Type} (now : Nat) (c : MemoryCache α) (k : String) (v : Option α)
    (ttl : Option Nat) : Bool × MemoryCache α :=
  let nk := makeKey c.ns k
  let c1 :=
    if c.maxSize ≤ c.cache.length ∧ (dlookup c.cache nk).isNone then evictOne c else c
  let exp := ttl.map (fun t => now + t)
  (true, { c1 with cache := dinsert c1.cache nk (v, exp) })

def memDelete {α : Type} (c : MemoryCache α) (k : String) : Bool × MemoryCache α :=
  let nk := makeKey c.ns k
  match dlookup c.cache nk with
  | some _ => (true, { c with cache := dremove c.cache nk })
  | none => (false, c)

def memSetList {α : Type} (now : Nat) :
    MemoryCache α → List (String × Option α) → MemoryCache α
  | c, [] => c
  | c, (k, v) :: rest => memSetList now (memSet now c k v none).2 rest

/-! ### FileCache (caching.py lines 542-788), pickle serializer (the default)

The filesystem is a map from path to file content.  A well-formed data file
holds the pickled `\x7b"value": v, "expires": None\x7d` dict; a well-formed
sidecar holds the metadata JSON written by `set`; `malformed` stands for any
content that the sidecar's `json.load` cannot parse (for a data path,
any content `pickle.loads` rejects).  `fileGet` returns `Except` because
one code path of `FileCache.get` lets an exception escape: the sidecar is
parsed with a bare `json.load`, whose `json.JSONDecodeError` is a
`ValueError`, caught by neither `except (OSError, SerializationError)` nor
wrapped — it propagates to the caller. -/

inductive FsFile (α : Type) where
  | data (v : Option α)
  | meta (expires : Option Nat) (created : Nat)
  | malformed
deriving DecidableEq

abbrev Fs (α : Type) := List (String × FsFile α)

inductive PyExc where
  | valueError
deriving DecidableEq

def dataPath (nsdir : String) (hashF : String → String) (k : String) : String :=
  nsdir ++ "/" ++ hashF k ++ ".pkl"

def metaPath (p : String) : String := p ++ ".meta"

/-- Truthiness of `metadata.get("expires")` in Python: the JSON value is
absent/null (falsy), or a number, falsy exactly when it is 0. -/
def expiresTruthy (e : Option Nat) : Prop := e.isSome ∧ e.getD 0 ≠ 0

instance (e : Option Nat) : Decidable (expiresTruthy e) := by
  unfold expiresTruthy; infer_instance

def fileGet {α : Type} (now : Nat) (nsdir : String) (hashF : String → String)
    (fs : Fs α) (k : String) : Except PyExc (Option α × Fs α) :=
  let p := dataPath nsdir hashF k
  let mp := metaPath p
  match dlookup fs p with
  | none => .ok (none, fs)
  | some df =>
    match dlookup fs mp with
    | some (.meta ex _) =>
      if expiresTruthy ex ∧ ex.getD 0 < now then
        .ok (none, dremove (dremove fs p) mp)
      else
        match df with
        | .data v => .ok (v, fs)
        | _ => .ok (none, fs)
    | some _ => .error .valueError
    | none =>
      match df with
      | .data v => .ok (v, fs)
      | _ => .ok (none, fs)

/-- The sidecar at path `mp` is absent, or well-formed with an expiry that the
expired-purge branch of `FileCache.get` does not fire on at instant `now`. -/
def staleMetaOk {α : Type} (now : Nat) (fs : Fs α) (mp : String) : Prop :=
  match dlookup fs mp with
  | none => True
  | some (.meta ex _) => ¬ (expiresTruthy ex ∧ ex.getD 0 < now)
  | some _ => False

instance {α : Type} (now : Nat) (fs : Fs α) (mp : String) :
    Decidable (staleMetaOk now fs mp) := by
  unfold staleMetaOk
  split <;> infer_instance

/-- The sidecar at path `mp` is absent or parses as metadata JSON (so the bare
`json.load` in `FileCache.get` does not raise). -/
def metaParses {α : Type} (fs : Fs α) (mp : String) : Prop :=
  match dlookup fs mp with
  | none => True
  | some (.meta _ _) => True
  | some _ => False

instance {α : Type} (fs : Fs α) (mp : String) : Decidable (metaParses fs mp) := by
  unfold metaParses
  split <;> infer_instance

def fileSet {α : Type} (now : Nat) (nsdir : String) (hashF : String → String)
    (fs : Fs α) (k : String) (v : Option α) (ttl : Option Nat) : Bool × Fs α :=
  let p := dataPath nsdir hashF k
  let fs1 := dinsert fs p (.data v)
  match ttl with
  | some t => (true, dinsert fs1 (metaPath p) (.meta (some (now + t)) now))
  | none => (true, fs1)

def fileDelete {α : Type} (nsdir : String) (hashF : String → String)
    (fs : Fs α) (k : String) : Bool × Fs α :=
  let p := dataPath nsdir hashF k
  (true, dremove (dremove fs p) (metaPath p))

/-! ### RedisCache.delete (caching.py lines 448-463), successful transport

`self._client.delete(nk)` returns the number of keys removed; the method
returns `bool(count)`.  The `redis.RedisError` path returns `False` and is
outside this success-path model. -/

def redisDelete {β : Type} (ns : String) (db : List (String × β)) (k : String) :
    Bool × List (String × β) :=
  let nk := makeKey ns k
  ((dlookup db nk).isSome, dremove db nk)

/-! ### MultiLevelCache (caching.py lines 791-979)

The orchestrator calls its backends only through the duck-typed
`get/set` contract, so it is embedded generically: a chain is a `List B`
of backend states together with the two operations `bget`/`bset`.  During
`get`, each backend's result depends only on its own state; the population
writes of `_populate_faster_backends` are applied here on the way out of
the recursion, which yields the same final states as the Python ascending
loop because each write touches a distinct backend. -/

def mlcGet {B α : Type} (bget : B → String → Option α × B)
    (bset : B → String → Option α → Option Nat → Bool × B)
    (dttl : Nat) (key : String) : List B → Option α × List B
  | [] => (none, [])
  | b :: rest =>
    match bget b key with
    | (some x, b') => (some x, b' :: rest)
    | (none, b') =>
      match mlcGet bget bset dttl key rest with
      | (some x, rest') => (some x, (bset b' key (some x) (some dttl)).2 :: rest')
      | (none, rest') => (none, b' :: rest')

def mlcSet {B α : Type} (bset : B → String → Option α → Option Nat → Bool × B)
    (dttl : Nat) (key : String) (v : Option α) (ttl : Option Nat) :
    List B → Bool × List B
  | [] => (false, [])
  | b :: rest =>
    let r := bset b key v (some (ttl.getD dttl))
    let rr := mlcSet bset dttl key v ttl rest
    (r.1 || rr.1, r.2 :: rr.2)

/-! ### CacheBackend.get_many default implementation (caching.py lines 118-133) -/

def getManyD {B α : Type} (bget : B → String → Option α × B) :
    List String → B → List (String × α) × B
  | [], b => ([], b)
  | k :: ks, b =>
    match bget b k with
    | (some x, b') =>
      let r := getManyD bget ks b'
      ((k, x) :: r.1, r.2)
    | (none, b') => getManyD bget ks b'

/-! ### cache_key (caching.py lines 982-999)

Positional arguments are stringified in order; keyword arguments are
`sorted(kwargs.items())` (a dict, so names are distinct and the sort is by
name) and rendered `name=value`; the parts are joined with ":" and the
result md5-hashed.  The digest is an abstract parameter.  `PyArg` captures
the Python values used by the claims, with Python's `str`. -/

inductive PyArg where
  | int (n : Int)
  | str (s : String)
deriving DecidableEq

def pyStr : PyArg → String
  | .int n => toString n
  | .str s => s

def insertSorted (p : String × PyArg) : List (String × PyArg) → List (String × PyArg)
  | [] => [p]
  | q :: rest => if p.1 ≤ q.1 then p :: q :: rest else q :: insertSorted p rest

def sortKw : List (String × PyArg) → List (String × PyArg)
  | [] => []
  | p :: rest => insertSorted p (sortKw rest)

def cacheKeyStr (args : List PyArg) (kwargs : List (String × PyArg)) : String :=
  String.intercalate ":"
    (args.map pyStr ++ (sortKw kwargs).map (fun p => p.1 ++ "=" ++ pyStr p.2))

def cache_key (digest : String → String) (args : List PyArg)
    (kwargs : List (String × PyArg)) : String :=
  digest (cacheKeyStr args kwargs)

/-! ### cached decorator (caching.py lines 1002-1047)

`cachedCall` models one call of the wrapper: `enabled` is
`settings.CACHE_ENABLED`, `cget`/`cset` the `get`/`set` of the
`MultiLevelCache` chosen by `get_cache`, `keyOf` the key derivation
(`cache_key(func.__name__, *args, **kwargs)` or `key_func`), and `n` counts
invocations of the wrapped function `f`. -/

def cachedCall {C A ρ : Type} (enabled : Bool)
    (cget : C → String → Option ρ × C)
    (cset : C → String → Option ρ → Option Nat → Bool × C)
    (f : A → Option ρ) (keyOf : A → String) (ttl : Option Nat)
    (st : C × Nat) (a : A) : Option ρ × C × Nat :=
  if enabled then
    match cget st.1 (keyOf a) with
    | (some x, c1) => (some x, c1, st.2)
    | (none, c1) =>
      let r := f a
      (r, (cset c1 (keyOf a) r ttl).2, st.2 + 1)
  else (f a, st.1, st.2 + 1)

/-! ### The fallback chain MemoryCache + FileCache (caching.py lines 826-832)

Dispatch of the duck-typed backend calls over the two-tier chain the
orchestrator builds when Redis is unavailable.  The `.error` fallback in
`memFileBGet` is never exercised by the theorems below (they establish
separately that `fileGet` does not raise on the states reached); in the
Python code an exception there would propagate out of the orchestrator. -/

def memFileBGet {α : Type} (now : Nat) (nsdir : String) (hashF : String → String) :
    MemoryCache α ⊕ Fs α → String → Option α × (MemoryCache α ⊕ Fs α)
  | .inl m, k =>
    let r := memGet now m k
    (r.1, .inl r.2)
  | .inr fs, k =>
    match fileGet now nsdir hashF fs k with
    | .ok (v, fs') => (v, .inr fs')
    | .error _ => (none, .inr fs)

def memFileBSet {α : Type} (now : Nat) (nsdir : String) (hashF : String → String) :
    MemoryCache α ⊕ Fs α → String → Option α → Option Nat → Bool × (MemoryCache α ⊕ Fs α)
  | .inl m, k, v, ttl =>
    let r := memSet now m k v ttl
    (r.1, .inl r.2)
  | .inr fs, k, v, ttl =>
    let r := fileSet now nsdir hashF fs k v ttl
    (r.1, .inr r.2)

/-! ### Helper lemmas: MemoryCache -/

theorem evictOne_ns {α : Type} (c : MemoryCache α) : (evictOne c).ns = c.ns := by
  unfold evictOne; split <;> rfl

theorem evictOne_maxSize {α : Type} (c : MemoryCache α) :
    (evictOne c).maxSize = c.maxSize := by
  unfold evictOne; split <;> rfl

theorem memSet_ns {α : Type} (now : Nat) (c : MemoryCache α) (k : String)
    (v : Option α) (ttl : Option Nat) : (memSet now c k v ttl).2.ns = c.ns := by
  simp only [memSet]
  split
  · exact evictOne_ns c
  · rfl

theorem memSet_cache {α : Type} (now : Nat) (c : MemoryCache α) (k : String)
    (v : Option α) (ttl : Option Nat) :
    (memSet now c k v ttl).2.cache =
      dinsert (if c.maxSize ≤ c.cache.length ∧ (dlookup c.cache (makeKey c.ns k)).isNone
               then evictOne c else c).cache
        (makeKey c.ns k) (v, ttl.map (fun t => now + t)) := rfl

theorem memGet_memSet_self {α : Type} (now : Nat) (c : MemoryCache α) (k : String)
    (v : Option α) (ttl : Option Nat) :
    (memGet now (memSet now c k v ttl).2 k).1 = v := by
  have hns := memSet_ns now c k v ttl
  have hcache := memSet_cache now c k v ttl
  cases ttl with
  | none =>
    simp [memGet, hns, hcache, dlookup_dinsert_self]
  | some t =>
    have hlt : ¬ now + t < now := by omega
    simp [memGet, hns, hcache, dlookup_dinsert_self, hlt]

/-! ### Helper lemmas: FileCache -/

theorem metaPath_ne (p : String) : metaPath p ≠ p := by
  intro h
  have hl := congrArg String.length h
  rw [metaPath, String.length_append] at hl
  have h5 : (".meta" : String).length = 5 := rfl
  omega

theorem fileGet_fileSet_ttl {α : Type} (now : Nat) (nsdir : String)
    (hashF : String → String) (fs : Fs α) (k : String) (v : Option α) (t : Nat) :
    fileGet now nsdir hashF (fileSet now nsdir hashF fs k v (some t)).2 k =
      .ok (v, (fileSet now nsdir hashF fs k v (some t)).2) := by
  have hne := metaPath_ne (dataPath nsdir hashF k)
  have hlt : ¬ now + t < now := by omega
  simp [fileGet, fileSet, dlookup_dinsert_self, dlookup_dinsert_ne _ _ _ _ hne,
    expiresTruthy, hlt]

theorem fileGet_fileSet_plain {α : Type} (now : Nat) (nsdir : String)
    (hashF : String → String) (fs : Fs α) (k : String) (v : Option α)
    (h : staleMetaOk now fs (metaPath (dataPath nsdir hashF k))) :
    fileGet now nsdir hashF (fileSet now nsdir hashF fs k v none).2 k =
      .ok (v, (fileSet now nsdir hashF fs k v none).2) := by
  have hne := metaPath_ne (dataPath nsdir hashF k)
  have hmp : dlookup (dinsert fs (dataPath nsdir hashF k) (FsFile.data v))
      (metaPath (dataPath nsdir hashF k)) = dlookup fs (metaPath (dataPath nsdir hashF k)) :=
    dlookup_dinsert_ne _ _ _ _ (Ne.symm hne)
  unfold staleMetaOk at h
  simp only [fileGet, fileSet, dlookup_dinsert_self, hmp]
  split at h
  · simp [*]
  · next hcase =>
    rw [hcase]
    simp [h]
  · exact absurd h (by simp)

/-! ### Helper lemmas: MultiLevelCache -/

theorem mlcGet_all_miss {B α : Type} (bget : B → String → Option α × B)
    (bset : B → String → Option α → Option Nat → Bool × B) (dttl : Nat) (key : String)
    (bs : List B) (h : ∀ b ∈ bs, (bget b key).1 = none) :
    mlcGet bget bset dttl key bs = (none, bs.map (fun b => (bget b key).2)) := by
  induction bs with
  | nil => rfl
  | cons b rest ih =>
    have hb := h b (List.mem_cons_self b rest)
    have hrest : ∀ b' ∈ rest, (bget b' key).1 = none :=
      fun b' hb' => h b' (List.mem_cons_of_mem _ hb')
    cases hb2 : bget b key with
    | mk v b' =>
      rw [hb2] at hb
      simp only at hb
      subst hb
      simp [mlcGet, hb2, ih hrest]

theorem mlcGet_hit {B α : Type} (bget : B → String → Option α × B)
    (bset : B → String → Option α → Option Nat → Bool × B) (dttl : Nat) (key : String) :
    ∀ (bs : List B) (i : Nat) (h : i < bs.length) (v : α),
      (∀ j (hj : j < i), (bget (bs.get ⟨j, Nat.lt_trans hj h⟩) key).1 = none) →
      (bget (bs.get ⟨i, h⟩) key).1 = some v →
      mlcGet bget bset dttl key bs =
        (some v,
          (bs.take i).map (fun b => (bset (bget b key).2 key (some v) (some dttl)).2)
            ++ (bget (bs.get ⟨i, h⟩) key).2 :: bs.drop (i + 1)) := by
  intro bs
  induction bs with
  | nil => intro i h; exact absurd h (Nat.not_lt_zero i)
  | cons b rest ih =>
    intro i h v hmiss hhit
    cases i with
    | zero =>
      cases hb2 : bget b key with
      | mk w b' =>
        have hw : w = some v := by
          have := hhit
          rw [show (b :: rest).get ⟨0, h⟩ = b from rfl, hb2] at this
          simpa using this
        subst hw
        simp [mlcGet, hb2]
    | succ i' =>
      have hb : (bget b key).1 = none := by
        simpa using hmiss 0 (Nat.succ_pos i')
      cases hb2 : bget b key with
      | mk w b' =>
        rw [hb2] at hb
        simp only at hb
        subst hb
        have hrec := ih i' (Nat.lt_of_succ_lt_succ h) v
          (fun j hj => by simpa using hmiss (j + 1) (Nat.succ_lt_succ hj))
          (by simpa using hhit)
        simp only [mlcGet, hb2, hrec, List.take_succ_cons, List.map_cons, List.drop_succ_cons]
        simp [hb2]

theorem mlcGet_cons_miss_fst {B α : Type} (bget : B → String → Option α × B)
    (bset : B → String → Option α → Option Nat → Bool × B) (dttl : Nat) (key : String)
    (b : B) (rest : List B) (h : (bget b key).1 = none) :
    (mlcGet bget bset dttl key (b :: rest)).1 = (mlcGet bget bset dttl key rest).1 := by
  cases hb2 : bget b key with
  | mk w b' =>
    rw [hb2] at h
    simp only at h
    subst h
    rcases hr : mlcGet bget bset dttl key rest with ⟨w', rest'⟩
    cases w' <;> simp [mlcGet, hb2, hr]

/-! ### Helper lemmas: value-level characterizations of MemoryCache.get -/

theorem memGet_fst {α : Type} (now : Nat) (c : MemoryCache α) (k : String) :
    (memGet now c k).1 =
      (match dlookup c.cache (makeKey c.ns k) with
        | some (v, exp) => if exp.isSome ∧ now > exp.getD 0 then none else v
        | none => none) := by
  rcases hd : dlookup c.cache (makeKey c.ns k) with _ | ⟨v, exp⟩
  · simp [memGet, hd]
  · simp only [memGet, hd]
    split <;> simp_all

theorem memGet_snd_ns {α : Type} (now : Nat) (c : MemoryCache α) (k : String) :
    (memGet now c k).2.ns = c.ns := by
  rcases hd : dlookup c.cache (makeKey c.ns k) with _ | ⟨v, exp⟩
  · simp [memGet, hd]
  · simp only [memGet, hd]
    split <;> rfl

theorem memGet_snd_cache {α : Type} (now : Nat) (c : MemoryCache α) (k : String) :
    (memGet now c k).2.cache =
      (match dlookup c.cache (makeKey c.ns k) with
        | some (v, exp) =>
          if exp.isSome ∧ now > exp.getD 0 then dremove c.cache (makeKey c.ns k)
          else dinsert c.cache (makeKey c.ns k) (v, exp)
        | none => c.cache) := by
  rcases hd : dlookup c.cache (makeKey c.ns k) with _ | ⟨v, exp⟩
  · simp [memGet, hd]
  · simp only [memGet, hd]
    split <;> simp_all

theorem dlookup_dinsert_same_entry {α : Type} (l : List (String × α)) (k k' : String)
    (v : α) (h : dlookup l k = some v) :
    dlookup (dinsert l k v) k' = dlookup l k' := by
  by_cases hk : k = k'
  · subst hk
    rw [dlookup_dinsert_self, h]
  · exact dlookup_dinsert_ne _ _ _ _ hk

/-- A key whose `get` reports a miss keeps reporting a miss after any other
`get` call on the same MemoryCache (gets only purge expired entries or
re-store an entry unchanged). -/
theorem memGet_none_preserved {α : Type} (now : Nat) (c : MemoryCache α) (k k' : String)
    (h : (memGet now c k).1 = none) :
    (memGet now (memGet now c k').2 k).1 = none := by
  rw [memGet_fst] at h ⊢
  rw [memGet_snd_cache, memGet_snd_ns]
  rcases hd : dlookup c.cache (makeKey c.ns k') with _ | ⟨v, exp⟩
  · simpa [hd] using h
  · simp only [hd]
    by_cases hcond : exp.isSome = true ∧ now > exp.getD 0
    · -- expired entry at k' was removed
      rw [if_pos hcond]
      by_cases hk : makeKey c.ns k' = makeKey c.ns k
      · rw [← hk, dlookup_dremove_self]
      · rw [dlookup_dremove_ne _ _ _ hk]
        exact h
    · -- live entry at k' was re-stored unchanged
      rw [if_neg hcond]
      rw [dlookup_dinsert_same_entry _ _ _ _ hd]
      exact h

theorem getManyD_mem_omits {α : Type} (now : Nat) (c : MemoryCache α)
    (keys : List String) (k : String) (h : (memGet now c k).1 = none) :
    ∀ x, (k, x) ∉ (getManyD (fun c' k' => memGet now c' k') keys c).1 := by
  induction keys generalizing c with
  | nil => simp [getManyD]
  | cons k1 ks ih =>
    intro x hx
    rcases hb : memGet now c k1 with ⟨v, c'⟩
    have hpres : (memGet now c' k).1 = none := by
      have := memGet_none_preserved now c k k1 h
      rwa [hb] at this
    cases v with
    | none =>
      rw [getManyD, hb] at hx
      exact ih c' hpres x hx
    | some y =>
      rw [getManyD, hb] at hx
      rcases List.mem_cons.1 hx with heq | hmem
      · have hk : k = k1 := congrArg Prod.fst heq
        subst hk
        rw [hb] at h
        simp at h
      · exact ih c' hpres x hmem

/-! ### Helper lemmas: eviction and capacity -/

theorem dlookup_cons_none {β : Type} (p : String × β) (l : List (String × β)) (k : String)
    (h : dlookup (p :: l) k = none) : dlookup l k = none := by
  obtain ⟨k', v⟩ := p
  by_cases hp : k' = k
  · simp only [dlookup, if_pos hp] at h
    cases h
  · simpa [dlookup, hp] using h

theorem makeKey_injective (ns : String) : Function.Injective (makeKey ns) := by
  intro a b h
  unfold makeKey at h
  have hdata := congrArg String.data h
  simp only [String.data_append, List.append_assoc, List.append_right_inj] at hdata
  exact String.ext hdata

theorem memSet_no_evict {α : Type} (now : Nat) (c : MemoryCache α) (k : String)
    (v : Option α) (ttl : Option Nat)
    (h : ¬ (c.maxSize ≤ c.cache.length ∧ (dlookup c.cache (makeKey c.ns k)).isNone = true)) :
    (memSet now c k v ttl).2 =
      { c with cache := dinsert c.cache (makeKey c.ns k) (v, ttl.map (fun t => now + t)) } := by
  simp only [memSet, if_neg h]

theorem memSet_at_capacity {α : Type} (now : Nat) (c : MemoryCache α) (k : String)
    (v : Option α) (ttl : Option Nat) (h1 : c.maxSize ≤ c.cache.length)
    (h2 : dlookup c.cache (makeKey c.ns k) = none) (h3 : c.cache ≠ []) :
    (memSet now c k v ttl).2.evictions = c.evictions + 1
    ∧ (memSet now c k v ttl).2.cache.length = c.cache.length
    ∧ dlookup (memSet now c k v ttl).2.cache (makeKey c.ns k) =
        some (v, ttl.map (fun t => now + t)) := by
  have hcond : c.maxSize ≤ c.cache.length ∧ (dlookup c.cache (makeKey c.ns k)).isNone = true :=
    ⟨h1, by simp [h2]⟩
  rcases hc : c.cache with _ | ⟨p0, rest⟩
  · exact absurd hc h3
  · have htail : dlookup rest (makeKey c.ns k) = none := dlookup_cons_none p0 rest _ (hc ▸ h2)
    have hev : evictOne c = { c with cache := rest, evictions := c.evictions + 1 } := by
      unfold evictOne
      rw [hc]
    have hset : (memSet now c k v ttl).2 =
        { c with cache := dinsert rest (makeKey c.ns k) (v, ttl.map (fun t => now + t)),
                 evictions := c.evictions + 1 } := by
      simp only [memSet, if_pos hcond, hev]
    rw [hset]
    exact ⟨rfl, by simp [length_dinsert_absent rest _ _ htail],
      dlookup_dinsert_self _ _ _⟩

theorem memSetList_append {α : Type} (now : Nat) (c : MemoryCache α)
    (l1 l2 : List (String × Option α)) :
    memSetList now c (l1 ++ l2) = memSetList now (memSetList now c l1) l2 := by
  induction l1 generalizing c with
  | nil => simp [memSetList]
  | cons p rest ih =>
    obtain ⟨k, v⟩ := p
    simp [memSetList, ih]

/-- Inserting fresh distinct keys below capacity never evicts: the map grows
by exactly the inserted entries, appended in insertion order. -/
theorem memSetList_fresh {α : Type} (now : Nat) :
    ∀ (ps : List (String × Option α)) (c : MemoryCache α),
      (∀ p ∈ ps, dlookup c.cache (makeKey c.ns p.1) = none) →
      ((ps.map Prod.fst).map (makeKey c.ns)).Nodup →
      c.cache.length + ps.length ≤ c.maxSize →
      memSetList now c ps =
        { c with cache := c.cache ++ ps.map (fun p => (makeKey c.ns p.1, (p.2, none))) } := by
  intro ps
  induction ps with
  | nil => intro c _ _ _; simp [memSetList]
  | cons p rest ih =>
    intro c habs hnodup hcap
    obtain ⟨k, v⟩ := p
    have hlen : c.cache.length < c.maxSize := by
      simp only [List.length_cons] at hcap
      omega
    have hcond : ¬ (c.maxSize ≤ c.cache.length ∧
        (dlookup c.cache (makeKey c.ns k)).isNone = true) := by
      rintro ⟨hx, _⟩
      omega
    have habsk : dlookup c.cache (makeKey c.ns k) = none :=
      habs (k, v) (List.mem_cons_self _ _)
    have hstep := memSet_no_evict now c k v none hcond
    rw [memSetList, hstep, dinsert_absent_append _ _ _ habsk]
    simp only [Option.map_none']
    set c1 : MemoryCache α :=
      { c with cache := c.cache ++ [(makeKey c.ns k, (v, none))] } with hc1
    have hns1 : c1.ns = c.ns := rfl
    have habs1 : ∀ p ∈ rest, dlookup c1.cache (makeKey c1.ns p.1) = none := by
      intro p hp
      have hmem : makeKey c.ns p.1 ∉ c.cache.map Prod.fst :=
        (dlookup_eq_none_iff _ _).1 (habs p (List.mem_cons_of_mem _ hp))
      have hne : makeKey c.ns p.1 ≠ makeKey c.ns k := by
        intro hwrong
        simp only [List.map_cons, List.map_map, List.nodup_cons] at hnodup
        exact hnodup.1 (hwrong ▸ List.mem_map_of_mem (makeKey c.ns ∘ Prod.fst) hp)
      rw [hc1]
      apply (dlookup_eq_none_iff _ _).2
      simp only [List.map_append]
      intro hcontra
      rcases List.mem_append.1 hcontra with hin | hin
      · exact hmem hin
      · simp at hin
        exact hne hin
    have hnodup1 : ((rest.map Prod.fst).map (makeKey c1.ns)).Nodup := by
      rw [hns1]
      simp only [List.map_cons, List.nodup_cons] at hnodup
      exact hnodup.2
    have hcap1 : c1.cache.length + rest.length ≤ c1.maxSize := by
      rw [hc1]
      simp only [List.length_append, List.length_singleton]
      simp only [List.length_cons] at hcap
      omega
    rw [ih c1 habs1 hnodup1 hcap1]
    rw [hc1]
    simp [List.append_assoc]

/-! ### Helper lemmas: sorted(kwargs.items()) -/

theorem insertSorted_perm (p : String × PyArg) (l : List (String × PyArg)) :
    List.Perm (insertSorted p l) (p :: l) := by
  induction l with
  | nil => exact List.Perm.refl _
  | cons q rest ih =>
    by_cases h : p.1 ≤ q.1
    · rw [insertSorted, if_pos h]
    · rw [insertSorted, if_neg h]
      exact (List.Perm.cons q ih).trans (List.Perm.swap p q rest)

theorem sortKw_perm (l : List (String × PyArg)) : List.Perm (sortKw l) l := by
  induction l with
  | nil => exact List.Perm.refl _
  | cons p rest ih => exact (insertSorted_perm p (sortKw rest)).trans (List.Perm.cons p ih)

theorem insertSorted_pairwise (p : String × PyArg) (l : List (String × PyArg))
    (h : l.Pairwise (fun a b => a.1 ≤ b.1)) :
    (insertSorted p l).Pairwise (fun a b => a.1 ≤ b.1) := by
  induction l with
  | nil => simp [insertSorted]
  | cons q rest ih =>
    rcases List.pairwise_cons.1 h with ⟨hq, hrest⟩
    by_cases hle : p.1 ≤ q.1
    · rw [insertSorted, if_pos hle]
      refine List.pairwise_cons.2 ⟨?_, h⟩
      intro b hb
      rcases List.mem_cons.1 hb with heq | hb'
      · rw [heq]
        exact hle
      · exact le_trans hle (hq b hb')
    · rw [insertSorted, if_neg hle]
      refine List.pairwise_cons.2 ⟨?_, ih hrest⟩
      intro b hb
      have hb2 := (insertSorted_perm p rest).mem_iff.1 hb
      rcases List.mem_cons.1 hb2 with heq | hb'
      · rw [heq]
        exact le_of_not_le hle
      · exact hq b hb'

theorem sortKw_pairwise (l : List (String × PyArg)) :
    (sortKw l).Pairwise (fun a b => a.1 ≤ b.1) := by
  induction l with
  | nil => simp [sortKw]
  | cons p rest ih => exact insertSorted_pairwise p _ ih

theorem sortKw_eq_of_perm (l l' : List (String × PyArg)) (hp : List.Perm l l')
    (hnd : (l.map Prod.fst).Nodup) : sortKw l = sortKw l' := by
  haveI : IsAntisymm (String × PyArg) (fun a b => a.1 < b.1) :=
    ⟨fun a b h1 h2 => absurd h2 (lt_asymm h1)⟩
  have hperm : List.Perm (sortKw l) (sortKw l') :=
    (sortKw_perm l).trans (hp.trans (sortKw_perm l').symm)
  have hnd1 : ((sortKw l).map Prod.fst).Nodup :=
    (((sortKw_perm l).map Prod.fst).nodup_iff).2 hnd
  have hnd2 : ((sortKw l').map Prod.fst).Nodup := by
    have hnd' : (l'.map Prod.fst).Nodup := ((hp.map Prod.fst).nodup_iff).1 hnd
    exact (((sortKw_perm l').map Prod.fst).nodup_iff).2 hnd'
  have hstrict : ∀ m : List (String × PyArg), m.Pairwise (fun a b => a.1 ≤ b.1) →
      (m.map Prod.fst).Nodup → m.Pairwise (fun a b => a.1 < b.1) := by
    intro m hle hnd0
    have hne : m.Pairwise (fun a b => a.1 ≠ b.1) := List.pairwise_map.1 hnd0
    exact (hle.and hne).imp (fun h => lt_of_le_of_ne h.1 h.2)
  exact List.eq_of_perm_of_sorted hperm
    (hstrict _ (sortKw_pairwise l) hnd1) (hstrict _ (sortKw_pairwise l') hnd2)

/-! ### Helper lemmas: storing None, and the two-tier round trip -/

theorem fileGet_fileSet_none_val {α : Type} (now : Nat) (nsdir : String)
    (hashF : String → String) (fs : Fs α) (k : String) (ttl : Option Nat)
    (h : metaParses fs (metaPath (dataPath nsdir hashF k))) :
    ∃ fs', fileGet now nsdir hashF (fileSet now nsdir hashF fs k none ttl).2 k =
      .ok (none, fs') := by
  cases ttl with
  | some t => exact ⟨_, fileGet_fileSet_ttl now nsdir hashF fs k none t⟩
  | none =>
    have hne := metaPath_ne (dataPath nsdir hashF k)
    have hmp : dlookup (dinsert fs (dataPath nsdir hashF k) (FsFile.data none))
        (metaPath (dataPath nsdir hashF k)) =
          dlookup fs (metaPath (dataPath nsdir hashF k)) :=
      dlookup_dinsert_ne _ _ _ _ (Ne.symm hne)
    rcases hd : dlookup fs (metaPath (dataPath nsdir hashF k)) with _ | f
    · exact ⟨dinsert fs (dataPath nsdir hashF k) (FsFile.data none),
        by simp [fileGet, fileSet, dlookup_dinsert_self, hmp, hd]⟩
    · cases f with
      | meta ex cr =>
        by_cases hcond : expiresTruthy ex ∧ ex.getD 0 < now
        · refine ⟨dremove (dremove (dinsert fs (dataPath nsdir hashF k) (FsFile.data none))
            (dataPath nsdir hashF k)) (metaPath (dataPath nsdir hashF k)), ?_⟩
          simp only [fileGet, fileSet, dlookup_dinsert_self, hmp, hd]
          rw [if_pos hcond]
        · refine ⟨dinsert fs (dataPath nsdir hashF k) (FsFile.data none), ?_⟩
          simp only [fileGet, fileSet, dlookup_dinsert_self, hmp, hd]
          rw [if_neg hcond]
      | data v => simp [metaParses, hd] at h
      | malformed => simp [metaParses, hd] at h

theorem mlc_memfile_roundtrip {α : Type} (now : Nat) (nsdir : String)
    (hashF : String → String) (m : MemoryCache α) (fs : Fs α) (k : String)
    (v : Option α) (ttl : Option Nat) (dttl : Nat) :
    (mlcGet (memFileBGet now nsdir hashF) (memFileBSet now nsdir hashF) dttl k
      (mlcSet (memFileBSet now nsdir hashF) dttl k v ttl
        [Sum.inl m, Sum.inr fs]).2).1 = v := by
  have hmem := memGet_memSet_self now m k v (some (ttl.getD dttl))
  rcases hg : memGet now (memSet now m k v (some (ttl.getD dttl))).2 k with ⟨w, m2⟩
  rw [hg] at hmem
  simp only at hmem
  rw [hmem] at hg
  have hfile := fileGet_fileSet_ttl now nsdir hashF fs k v (ttl.getD dttl)
  cases v with
  | some x =>
    simp [mlcGet, mlcSet, memFileBSet, memFileBGet, hg]
  | none =>
    simp [mlcGet, mlcSet, memFileBSet, memFileBGet, hg, hfile]

/-! ### Claims -/

/-- C2: `MultiLevelCache.get` queries backends in order from index 0 upward;
if every backend misses it returns absent and no backend is written; when the
first hit occurs at index `i` it returns that value and writes it, with the
orchestrator's default TTL, to exactly the backends at indices strictly less
than `i` (backend `i` itself is left in its post-`get` state, later backends
untouched). -/
theorem C2_mlc_get_order_and_population (B α : Type)
    (bget : B → String → Option α × B)
    (bset : B → String → Option α → Option Nat → Bool × B)
    (dttl : Nat) (key : String) (bs : List B) :
    ((∀ b ∈ bs, (bget b key).1 = none) →
      mlcGet bget bset dttl key bs = (none, bs.map (fun b => (bget b key).2)))
    ∧ ∀ (i : Nat) (h : i < bs.length) (v : α),
        (∀ j (hj : j < i), (bget (bs.get ⟨j, Nat.lt_trans hj h⟩) key).1 = none) →
        (bget (bs.get ⟨i, h⟩) key).1 = some v →
        mlcGet bget bset dttl key bs =
          (some v,
            (bs.take i).map (fun b => (bset (bget b key).2 key (some v) (some dttl)).2)
              ++ (bget (bs.get ⟨i, h⟩) key).2 :: bs.drop (i + 1)) :=
  ⟨mlcGet_all_miss bget bset dttl key bs,
    fun i h v => mlcGet_hit bget bset dttl key bs i h v⟩

/-- C2 witness: a three-backend chain where index 0 misses and index 1 hits
with value 2; the orchestrator returns 2, populates backend 0 only, and
leaves backend 2 untouched. -/
theorem C2_mlc_get_order_and_population_witness :
    mlcGet (fun (b : Nat) (_ : String) => (if b = 0 then none else some b, b + 1))
        (fun (b : Nat) (_ : String) (_ : Option Nat) (_ : Option Nat) => (true, b + 100))
        7 "k" [0, 2, 5] =
      (some 2, [101, 3, 5]) := by
  have hlen : 1 < ([0, 2, 5] : List Nat).length := by decide
  have hmiss : ∀ (j : Nat) (hj : j < 1),
      ((fun (b : Nat) (_ : String) => (if b = 0 then none else some b, b + 1))
        (([0, 2, 5] : List Nat).get ⟨j, Nat.lt_trans hj hlen⟩) "k").1 = none := by
    intro j hj
    have hj0 : j = 0 := by omega
    subst hj0
    rfl
  have hhit : ((fun (b : Nat) (_ : String) => (if b = 0 then none else some b, b + 1))
      (([0, 2, 5] : List Nat).get ⟨1, hlen⟩) "k").1 = some 2 := rfl
  have h := (C2_mlc_get_order_and_population Nat Nat
    (fun (b : Nat) (_ : String) => (if b = 0 then none else some b, b + 1))
    (fun (b : Nat) (_ : String) (_ : Option Nat) (_ : Option Nat) => (true, b + 100))
    7 "k" [0, 2, 5]).2 1 hlen 2 hmiss hhit
  exact h.trans (by rfl)

/-- C3: an entry whose expiry instant has already passed (expiry instants
written by the code are positive clock values) is never returned: the
in-process tier's `get` reports a miss and deletes the entry, and the durable
tier's `get` reports a miss and deletes both the data file and the sidecar
metadata file. -/
theorem C3_expired_never_returned (α : Type) :
    (∀ (now : Nat) (c : MemoryCache α) (k : String) (v : Option α) (e : Nat),
      dlookup c.cache (makeKey c.ns k) = some (v, some e) → e < now →
      (memGet now c k).1 = none ∧
        dlookup (memGet now c k).2.cache (makeKey c.ns k) = none)
    ∧ (∀ (now : Nat) (nsdir : String) (hashF : String → String) (fs : Fs α)
        (k : String) (df : FsFile α) (e cr : Nat),
        dlookup fs (dataPath nsdir hashF k) = some df →
        dlookup fs (metaPath (dataPath nsdir hashF k)) = some (.meta (some e) cr) →
        0 < e → e < now →
        fileGet now nsdir hashF fs k =
          .ok (none, dremove (dremove fs (dataPath nsdir hashF k))
            (metaPath (dataPath nsdir hashF k)))
        ∧ dlookup (dremove (dremove fs (dataPath nsdir hashF k))
            (metaPath (dataPath nsdir hashF k))) (dataPath nsdir hashF k) = none
        ∧ dlookup (dremove (dremove fs (dataPath nsdir hashF k))
            (metaPath (dataPath nsdir hashF k)))
              (metaPath (dataPath nsdir hashF k)) = none) := by
  constructor
  · intro now c k v e hd he
    constructor
    · simp [memGet_fst, hd, he]
    · simp [memGet_snd_cache, hd, he, dlookup_dremove_self]
  · intro now nsdir hashF fs k df e cr hd hm h0 he
    have hcond : expiresTruthy (some e) ∧ (Option.some e).getD 0 < now :=
      ⟨⟨rfl, by simp only [Option.getD_some]; omega⟩,
        by simp only [Option.getD_some]; omega⟩
    refine ⟨?_, ?_, ?_⟩
    · simp only [fileGet, hd, hm]
      rw [if_pos hcond]
    · rw [dlookup_dremove_ne _ _ _ (metaPath_ne (dataPath nsdir hashF k)),
        dlookup_dremove_self]
    · rw [dlookup_dremove_self]

/-- C3 witness: a memory entry and a durable entry whose expiry instant 1 has
passed by instant 5 are reported absent and purged. -/
theorem C3_expired_never_returned_witness :
    ((memGet 5 ⟨"ns", [("ns:k", (some 1, some 1))], 10, 0, 0, 0⟩ "k").1 = (none : Option Nat)
      ∧ dlookup (memGet 5 (⟨"ns", [("ns:k", (some 1, some 1))], 10, 0, 0, 0⟩ : MemoryCache Nat)
          "k").2.cache "ns:k" = none)
    ∧ fileGet 5 "d" id
        [("d/k.pkl", FsFile.data (some (1 : Nat))), ("d/k.pkl.meta", FsFile.meta (some 1) 0)]
        "k" = .ok (none, []) := by
  constructor
  · exact (C3_expired_never_returned Nat).1 5
      ⟨"ns", [("ns:k", (some 1, some 1))], 10, 0, 0, 0⟩ "k" (some 1) 1 (by decide) (by decide)
  · have h := (C3_expired_never_returned Nat).2 5 "d" id
      [("d/k.pkl", FsFile.data (some 1)), ("d/k.pkl.meta", FsFile.meta (some 1) 0)]
      "k" (FsFile.data (some 1)) 1 0 (by decide) (by decide) (by decide) (by decide)
    exact h.1.trans (by rfl)

/-- C5: contrary to the failure policy, not every deserialization error inside
a backend operation is caught.  `FileCache.get` parses the sidecar with a bare
`json.load`, whose decode error (a `ValueError`) is caught by neither
`except OSError` nor `except SerializationError`: with a present data file and
a malformed sidecar the exception propagates out of `get` (first conjunct),
whereas a malformed data file is converted to a miss as the claim says
(second conjunct). -/
theorem C5_malformed_sidecar_raises :
    fileGet 5 "d" id
        [("d/k.pkl", FsFile.data (some (1 : Nat))), ("d/k.pkl.meta", FsFile.malformed)]
        "k" = .error .valueError
    ∧ fileGet 5 "d" id [("d/k.pkl", (FsFile.malformed : FsFile Nat))] "k" =
        .ok (none, [("d/k.pkl", FsFile.malformed)]) :=
  ⟨rfl, rfl⟩

/-- C6 counterexample: on an empty filesystem no entry for "k" exists, yet
`FileCache.delete` returns True (it returns False only when an OS error is
raised), contradicting the claim that delete returns True iff an entry was
present and removed. -/
theorem C6_delete_counterexample :
    dlookup ([] : Fs Nat) (dataPath "d" id "k") = none
    ∧ (fileDelete "d" id ([] : Fs Nat) "k").1 = true :=
  ⟨rfl, rfl⟩

/-- C6 amended: `MemoryCache.delete` (and `RedisCache.delete` on a successful
transport) returns True iff an entry for the key was present, and removes it;
`FileCache.delete` removes whatever of the data and sidecar files exist but
returns True even when no entry existed (False only on an OS error). -/
theorem C6_delete_amended (α β : Type) :
    (∀ (c : MemoryCache α) (k : String),
      ((memDelete c k).1 = true ↔ (dlookup c.cache (makeKey c.ns k)).isSome = true)
      ∧ dlookup (memDelete c k).2.cache (makeKey c.ns k) = none)
    ∧ (∀ (ns : String) (db : List (String × β)) (k : String),
      ((redisDelete ns db k).1 = true ↔ (dlookup db (makeKey ns k)).isSome = true)
      ∧ dlookup (redisDelete ns db k).2 (makeKey ns k) = none)
    ∧ (∀ (nsdir : String) (hashF : String → String) (fs : Fs α) (k : String),
      (fileDelete nsdir hashF fs k).1 = true
      ∧ dlookup (fileDelete nsdir hashF fs k).2 (dataPath nsdir hashF k) = none
      ∧ dlookup (fileDelete nsdir hashF fs k).2
          (metaPath (dataPath nsdir hashF k)) = none) := by
  refine ⟨?_, ?_, ?_⟩
  · intro c k
    rcases hd : dlookup c.cache (makeKey c.ns k) with _ | e
    · simp [memDelete, hd]
    · simp [memDelete, hd, dlookup_dremove_self]
  · intro ns db k
    rcases hd : dlookup db (makeKey ns k) with _ | e
    · simp [redisDelete, hd, dlookup_dremove_self]
    · simp [redisDelete, hd, dlookup_dremove_self]
  · intro nsdir hashF fs k
    refine ⟨rfl, ?_, ?_⟩
    · rw [fileDelete]
      rw [dlookup_dremove_ne _ _ _ (metaPath_ne (dataPath nsdir hashF k)),
        dlookup_dremove_self]
    · rw [fileDelete, dlookup_dremove_self]

/-- C8: `cache_key` ignores the order in which keyword arguments are passed
(any permutation of the keyword dict gives the same key) and is sensitive to
the order of positional arguments: assuming the digest is injective (the
spec's collision-resistance assumption), `cache_key(1, 2) ≠ cache_key(2, 1)`.
Determinism holds because `cache_key` is embedded as a pure function of its
arguments. -/
theorem C8_cache_key_order (digest : String → String) :
    (∀ (args : List PyArg) (kwargs kwargs' : List (String × PyArg)),
      List.Perm kwargs kwargs' → (kwargs.map Prod.fst).Nodup →
      cache_key digest args kwargs = cache_key digest args kwargs')
    ∧ (Function.Injective digest →
        cache_key digest [PyArg.int 1, PyArg.int 2] [] ≠
          cache_key digest [PyArg.int 2, PyArg.int 1] []) := by
  constructor
  · intro args kwargs kwargs' hp hnd
    unfold cache_key cacheKeyStr
    rw [sortKw_eq_of_perm kwargs kwargs' hp hnd]
  · intro hinj heq
    have hstr := hinj heq
    exact absurd hstr (by decide)

/-- C8 witness: with the identity digest,
`cache_key(1, 2, a=3, b=4) = cache_key(1, 2, b=4, a=3)` while
`cache_key(1, 2) ≠ cache_key(2, 1)`. -/
theorem C8_cache_key_order_witness :
    cache_key id [PyArg.int 1, PyArg.int 2] [("a", PyArg.int 3), ("b", PyArg.int 4)] =
      cache_key id [PyArg.int 1, PyArg.int 2] [("b", PyArg.int 4), ("a", PyArg.int 3)]
    ∧ cache_key id [PyArg.int 1, PyArg.int 2] [] ≠
        cache_key id [PyArg.int 2, PyArg.int 1] [] :=
  ⟨(C8_cache_key_order id).1 [PyArg.int 1, PyArg.int 2]
      [("a", PyArg.int 3), ("b", PyArg.int 4)] [("b", PyArg.int 4), ("a", PyArg.int 3)]
      (by decide) (by decide),
    (C8_cache_key_order id).2 (fun a b h => h)⟩

/-- C10: `cache_key` collides before hashing: the delimiter ":" makes
`cache_key("a:b")` and `cache_key("a", "b")` identical, and Python's `str`
makes `cache_key(1)` and `cache_key("1")` identical, for every digest. -/
theorem C10_cache_key_collisions (digest : String → String) :
    cache_key digest [PyArg.str "a:b"] [] =
      cache_key digest [PyArg.str "a", PyArg.str "b"] []
    ∧ cache_key digest [PyArg.int 1] [] = cache_key digest [PyArg.str "1"] [] := by
  constructor
  · exact congrArg digest (by decide)
  · exact congrArg digest (by decide)

/-- C1 counterexample: `FileCache.set` without a ttl does not remove a stale
sidecar left by an earlier ttl-write of the same key.  After `set(k, 1, ttl=1)`
at instant 0, a plain `set(k, 3)` at instant 5 followed immediately by
`get(k)` at instant 5 returns absent (and purges the entry) instead of 3:
the round trip fails even though both calls happen at the same instant. -/
theorem C1_roundtrip_counterexample :
    fileGet 5 "d" id
        (fileSet 5 "d" id (fileSet 0 "d" id ([] : Fs Nat) "k" (some 1) (some 1)).2
          "k" (some 3) none).2 "k" = .ok (none, [])
    ∧ (some 3 : Option Nat) ≠ none :=
  ⟨rfl, by decide⟩

/-- C1 amended: set-then-get round-trips (a) unconditionally on the in-process
tier, (b) on the durable tier whenever the `set` carries a ttl, (c) on the
durable tier for a plain `set` provided no stale sidecar with an
already-passed expiry remains for that key, and (d) unconditionally through
the orchestrator over the memory+file fallback chain, because the
orchestrator always writes with an explicit (default) ttl, refreshing the
sidecar. -/
theorem C1_roundtrip_amended (α : Type) :
    (∀ (now : Nat) (c : MemoryCache α) (k : String) (v : Option α) (ttl : Option Nat),
      (memGet now (memSet now c k v ttl).2 k).1 = v)
    ∧ (∀ (now : Nat) (nsdir : String) (hashF : String → String) (fs : Fs α)
        (k : String) (v : Option α) (t : Nat),
        fileGet now nsdir hashF (fileSet now nsdir hashF fs k v (some t)).2 k =
          .ok (v, (fileSet now nsdir hashF fs k v (some t)).2))
    ∧ (∀ (now : Nat) (nsdir : String) (hashF : String → String) (fs : Fs α)
        (k : String) (v : Option α),
        staleMetaOk now fs (metaPath (dataPath nsdir hashF k)) →
        fileGet now nsdir hashF (fileSet now nsdir hashF fs k v none).2 k =
          .ok (v, (fileSet now nsdir hashF fs k v none).2))
    ∧ (∀ (now : Nat) (nsdir : String) (hashF : String → String) (m : MemoryCache α)
        (fs : Fs α) (k : String) (v : Option α) (ttl : Option Nat) (dttl : Nat),
        (mlcGet (memFileBGet now nsdir hashF) (memFileBSet now nsdir hashF) dttl k
          (mlcSet (memFileBSet now nsdir hashF) dttl k v ttl
            [Sum.inl m, Sum.inr fs]).2).1 = v) :=
  ⟨fun now c k v ttl => memGet_memSet_self now c k v ttl,
    fun now nsdir hashF fs k v t => fileGet_fileSet_ttl now nsdir hashF fs k v t,
    fun now nsdir hashF fs k v h => fileGet_fileSet_plain now nsdir hashF fs k v h,
    fun now nsdir hashF m fs k v ttl dttl =>
      mlc_memfile_roundtrip now nsdir hashF m fs k v ttl dttl⟩

/-- C1 witness: a plain durable-tier `set` of 3 on a clean filesystem
round-trips, discharging the no-stale-sidecar hypothesis. -/
theorem C1_roundtrip_amended_witness :
    fileGet 5 "d" id (fileSet 5 "d" id ([] : Fs Nat) "k" (some 3) none).2 "k" =
      .ok (some 3, [("d/k.pkl", FsFile.data (some 3))]) := by
  have h := (C1_roundtrip_amended Nat).2.2.1 5 "d" id [] "k" (some 3) (by decide)
  exact h.trans (by rfl)

/-- C4 counterexample: with capacity `max_size = 0`, inserting one distinct
key into a fresh in-process tier triggers the eviction guard on an empty map,
which evicts nothing; the result has zero evictions and size 1, not one
eviction and size `max_size`. -/
theorem C4_eviction_counterexample :
    ¬ ((memSetList 0 (memFresh Nat "ns" 0) [("a", some 0)]).evictions = 1
        ∧ (memSetList 0 (memFresh Nat "ns" 0) [("a", some 0)]).cache.length = 0) := by
  decide

/-- C4 amended: for the in-process tier with capacity `max_size ≥ 1`
(equivalently, a nonempty map at capacity): a `set` of a new key while the
map holds at least `max_size` entries evicts exactly one existing entry
before inserting, and inserting `max_size + 1` distinct keys into a fresh
instance yields exactly one eviction and final size `max_size`. -/
theorem C4_eviction_amended (α : Type) :
    (∀ (now : Nat) (c : MemoryCache α) (k : String) (v : Option α) (ttl : Option Nat),
      c.maxSize ≤ c.cache.length → dlookup c.cache (makeKey c.ns k) = none →
      c.cache ≠ [] →
      (memSet now c k v ttl).2.evictions = c.evictions + 1
      ∧ (memSet now c k v ttl).2.cache.length = c.cache.length
      ∧ dlookup (memSet now c k v ttl).2.cache (makeKey c.ns k) =
          some (v, ttl.map (fun t => now + t)))
    ∧ (∀ (ns : String) (m : Nat) (ps : List (String × Option α)) (now : Nat),
        1 ≤ m → ps.length = m + 1 → (ps.map Prod.fst).Nodup →
        (memSetList now (memFresh α ns m) ps).evictions = 1
        ∧ (memSetList now (memFresh α ns m) ps).cache.length = m) := by
  constructor
  · intro now c k v ttl h1 h2 h3
    exact memSet_at_capacity now c k v ttl h1 h2 h3
  · intro ns m ps now hm hlen hnd
    have hne : ps ≠ [] := by
      intro hempty
      rw [hempty] at hlen
      simp at hlen
    have hsplit : ps.dropLast ++ [ps.getLast hne] = ps :=
      List.dropLast_append_getLast hne
    have hlen1 : ps.dropLast.length = m := by
      rw [List.length_dropLast, hlen]
      omega
    have hmapsplit : ps.map Prod.fst =
        ps.dropLast.map Prod.fst ++ [(ps.getLast hne).1] := by
      conv_lhs => rw [← hsplit]
      simp
    have hnd1 : (ps.dropLast.map Prod.fst).Nodup := by
      rw [hmapsplit] at hnd
      exact hnd.of_append_left
    have hlast : (ps.getLast hne).1 ∉ ps.dropLast.map Prod.fst := by
      rw [hmapsplit] at hnd
      intro hmem
      rcases List.nodup_append.1 hnd with ⟨_, _, hdisj⟩
      exact hdisj hmem (List.mem_singleton_self _)
    have hfresh := memSetList_fresh now ps.dropLast (memFresh α ns m)
      (fun p _ => rfl)
      (hnd1.map (makeKey_injective ns))
      (by simp [memFresh]; omega)
    obtain ⟨kl, vl, hlg⟩ : ∃ kl vl, ps.getLast hne = (kl, vl) := ⟨_, _, rfl⟩
    rw [← hsplit, memSetList_append, hfresh, hlg]
    simp only [memFresh, List.nil_append]
    have hLlen : (ps.dropLast.map (fun p => (makeKey ns p.1, (p.2, (none : Option Nat))))).length
        = m := by
      rw [List.length_map, hlen1]
    have habs2 : dlookup (ps.dropLast.map (fun p => (makeKey ns p.1, (p.2, (none : Option Nat)))))
        (makeKey ns kl) = none := by
      apply (dlookup_eq_none_iff _ _).2
      rw [List.map_map]
      intro hmem
      rcases List.mem_map.1 hmem with ⟨p, hp, heq⟩
      have hfst : p.1 = kl := makeKey_injective ns heq
      have hkl : (ps.getLast hne).1 = kl := by rw [hlg]
      rw [← hkl] at hfst
      exact hlast (hfst ▸ List.mem_map_of_mem Prod.fst hp)
    have hLne : (ps.dropLast.map (fun p => (makeKey ns p.1, (p.2, (none : Option Nat))))) ≠ [] := by
      intro h0
      rw [h0] at hLlen
      simp at hLlen
      omega
    have hcap := memSet_at_capacity now
      (⟨ns, ps.dropLast.map (fun p => (makeKey ns p.1, (p.2, (none : Option Nat)))),
        m, 0, 0, 0⟩ : MemoryCache α) kl vl none
      hLlen.ge habs2 hLne
    simp only [memSetList]
    exact ⟨hcap.1, by rw [hcap.2.1, hLlen]⟩

/-- C4 witness: capacity 1, two distinct keys: exactly one eviction and final
size 1. -/
theorem C4_eviction_amended_witness :
    (memSetList 0 (memFresh Nat "n" 1) [("a", some 0), ("b", some 1)]).evictions = 1
    ∧ (memSetList 0 (memFresh Nat "n" 1) [("a", some 0), ("b", some 1)]).cache.length = 1 :=
  (C4_eviction_amended Nat).2 "n" 1 [("a", some 0), ("b", some 1)] 0
    (by decide) (by decide) (by decide)

/-- C7 counterexample: a wrapped function returning `None` is invoked on
every call even with caching enabled: two identical calls invoke it twice,
not exactly once as claimed (the cache stores `None`, and the wrapper cannot
distinguish the stored `None` from a miss). -/
theorem C7_cached_counterexample :
    (cachedCall true (fun (c : MemoryCache Nat) (k : String) => memGet 0 c k)
        (fun c k v t => memSet 0 c k v t) (fun (_ : Unit) => (none : Option Nat))
        (fun _ => "key") none
        (cachedCall true (fun (c : MemoryCache Nat) (k : String) => memGet 0 c k)
          (fun c k v t => memSet 0 c k v t) (fun (_ : Unit) => (none : Option Nat))
          (fun _ => "key") none (memFresh Nat "ns" 10, 0) ()).2 ()).2.2 = 2
    ∧ 2 ≠ 1 :=
  ⟨rfl, by decide⟩

/-- C7 amended: with the caching flag off every call invokes the function
directly; with the flag on, for a function whose result is not `None` and a
cache whose set-then-get round-trips at the call's key, two identical calls
invoke the function exactly once (the second is served from the cache), and
a subsequent call whose key is uncached invokes the function again.  (A
`None` result is re-invoked on every call; see the C9 theorem.) -/
theorem C7_cached_amended (C A ρ : Type) (cget : C → String → Option ρ × C)
    (cset : C → String → Option ρ → Option Nat → Bool × C) (f : A → Option ρ)
    (keyOf : A → String) (ttl : Option Nat) :
    (∀ (c : C) (n : Nat) (a : A),
      cachedCall false cget cset f keyOf ttl (c, n) a = (f a, c, n + 1))
    ∧ (∀ (c : C) (n : Nat) (a : A) (x : ρ),
        f a = some x →
        (cget c (keyOf a)).1 = none →
        (cget (cset (cget c (keyOf a)).2 (keyOf a) (some x) ttl).2 (keyOf a)).1 = some x →
        cachedCall true cget cset f keyOf ttl (c, n) a =
          (some x, (cset (cget c (keyOf a)).2 (keyOf a) (some x) ttl).2, n + 1)
        ∧ (cachedCall true cget cset f keyOf ttl
            ((cset (cget c (keyOf a)).2 (keyOf a) (some x) ttl).2, n + 1) a).1 = some x
        ∧ (cachedCall true cget cset f keyOf ttl
            ((cset (cget c (keyOf a)).2 (keyOf a) (some x) ttl).2, n + 1) a).2.2 = n + 1)
    ∧ (∀ (c : C) (n : Nat) (b : A),
        (cget c (keyOf b)).1 = none →
        (cachedCall true cget cset f keyOf ttl (c, n) b).2.2 = n + 1
        ∧ (cachedCall true cget cset f keyOf ttl (c, n) b).1 = f b) := by
  refine ⟨?_, ?_, ?_⟩
  · intro c n a
    rfl
  · intro c n a x hf hm hh
    rcases hc : cget c (keyOf a) with ⟨w, c1⟩
    rw [hc] at hm
    simp only at hm
    subst hm
    simp only [hc]
    rcases hc2 : cget (cset c1 (keyOf a) (some x) ttl).2 (keyOf a) with ⟨w2, c3⟩
    rw [hc] at hh
    simp only [hc2] at hh ⊢
    subst hh
    refine ⟨?_, ?_, ?_⟩
    · simp [cachedCall, hc, hf]
    · simp [cachedCall, hc2]
    · simp [cachedCall, hc2]
  · intro c n b hm
    rcases hc : cget c (keyOf b) with ⟨w, c1⟩
    rw [hc] at hm
    simp only at hm
    subst hm
    exact ⟨by simp [cachedCall, hc], by simp [cachedCall, hc]⟩

/-- C7 witness: a wrapped constant function returning 5 over a fresh
in-process cache: the second identical call leaves the invocation count at 1. -/
theorem C7_cached_amended_witness :
    (cachedCall true (fun (c : MemoryCache Nat) (k : String) => memGet 0 c k)
        (fun c k v t => memSet 0 c k v t) (fun (_ : Unit) => some 5) (fun _ => "k") none
        (cachedCall true (fun (c : MemoryCache Nat) (k : String) => memGet 0 c k)
          (fun c k v t => memSet 0 c k v t) (fun (_ : Unit) => some 5) (fun _ => "k") none
          (memFresh Nat "ns" 4, 0) ()).2 ()).2.2 = 1 := by
  have h := (C7_cached_amended (MemoryCache Nat) Unit Nat
    (fun c k => memGet 0 c k) (fun c k v t => memSet 0 c k v t)
    (fun _ => some 5) (fun _ => "k") none).2.1 (memFresh Nat "ns" 4) 0 () 5 rfl
    (by decide) (by decide)
  rw [h.1]
  exact h.2.2

/-- C9: the stored value `None` is indistinguishable from absence at every
embedded interface: `get` after `set(k, None)` reports a miss on the
in-process and durable tiers; the default `get_many` omits any key whose
`get` reports a miss (in particular a stored `None`); the orchestrator's
`get` treats a tier's `None` as a miss and keeps searching slower tiers; and
a decorator-wrapped function returning `None` is re-invoked on every call,
each call leaving the key still reporting a miss. -/
theorem C9_none_is_absent (α ρ A : Type) :
    (∀ (now : Nat) (c : MemoryCache α) (k : String) (ttl : Option Nat),
      (memGet now (memSet now c k none ttl).2 k).1 = none)
    ∧ (∀ (now : Nat) (nsdir : String) (hashF : String → String) (fs : Fs α)
        (k : String) (ttl : Option Nat),
        metaParses fs (metaPath (dataPath nsdir hashF k)) →
        ∃ fs', fileGet now nsdir hashF (fileSet now nsdir hashF fs k none ttl).2 k =
          .ok (none, fs'))
    ∧ (∀ (now : Nat) (c : MemoryCache α) (keys : List String) (k : String),
        (memGet now c k).1 = none →
        ∀ x, (k, x) ∉ (getManyD (fun c' k' => memGet now c' k') keys c).1)
    ∧ (∀ (B : Type) (bget : B → String → Option α × B)
        (bset : B → String → Option α → Option Nat → Bool × B) (dttl : Nat)
        (key : String) (b : B) (rest : List B),
        (bget b key).1 = none →
        (mlcGet bget bset dttl key (b :: rest)).1 = (mlcGet bget bset dttl key rest).1)
    ∧ (∀ (now : Nat) (c : MemoryCache ρ) (n : Nat) (f : A → Option ρ)
        (keyOf : A → String) (ttl : Option Nat) (a : A),
        f a = none → (memGet now c (keyOf a)).1 = none →
        (cachedCall true (fun c' k' => memGet now c' k')
            (fun c' k' v t => memSet now c' k' v t) f keyOf ttl (c, n) a).1 = none
        ∧ (cachedCall true (fun c' k' => memGet now c' k')
            (fun c' k' v t => memSet now c' k' v t) f keyOf ttl (c, n) a).2.2 = n + 1
        ∧ (memGet now (cachedCall true (fun c' k' => memGet now c' k')
            (fun c' k' v t => memSet now c' k' v t) f keyOf ttl (c, n) a).2.1
              (keyOf a)).1 = none) := by
  refine ⟨?_, ?_, ?_, ?_, ?_⟩
  · intro now c k ttl
    exact memGet_memSet_self now c k none ttl
  · intro now nsdir hashF fs k ttl h
    exact fileGet_fileSet_none_val now nsdir hashF fs k ttl h
  · intro now c keys k h
    exact getManyD_mem_omits now c keys k h
  · intro B bget bset dttl key b rest h
    exact mlcGet_cons_miss_fst bget bset dttl key b rest h
  · intro now c n f keyOf ttl a hf hm
    rcases hc : memGet now c (keyOf a) with ⟨w, c1⟩
    rw [hc] at hm
    simp only at hm
    subst hm
    refine ⟨?_, ?_, ?_⟩
    · simp [cachedCall, hc, hf]
    · simp [cachedCall, hc, hf]
    · simp [cachedCall, hc, hf, memGet_memSet_self]

/-- C9 witness: storing `None` on the durable tier (empty filesystem, so the
sidecar-parses hypothesis holds) yields a miss, and a miss survives a
`get_many` over it. -/
theorem C9_none_is_absent_witness :
    (∃ fs', fileGet 0 "d" id (fileSet 0 "d" id ([] : Fs Nat) "k" none none).2 "k" =
      .ok (none, fs'))
    ∧ ∀ x, ("k", x) ∉ (getManyD (fun (c' : MemoryCache Nat) k' => memGet 0 c' k')
        ["k", "j"] (memSet 0 (memFresh Nat "ns" 3) "k" none none).2).1 := by
  constructor
  · exact (C9_none_is_absent Nat Nat Unit).2.1 0 "d" id [] "k" none (by decide)
  · exact (C9_none_is_absent Nat Nat Unit).2.2.1 0
      (memSet 0 (memFresh Nat "ns" 3) "k" none none).2 ["k", "j"] "k" (by decide)

end ThinkTankCache
